import Mathlib

/-!
Verification of the learning core of the sunfish3 shogi engine
(src/learning/BatchLearning.cpp, src/learning/OnlineLearning.cpp,
src/searcher/eval/Material.cpp).

The board representation, move generation, move (de)serialization and the
alpha-beta searcher are external collaborators of the learning code (the
spec declares them out of scope), so they enter the embedding as
parameters: a move is an abstract value, a search result is a value
function, applying a serialized move to a board is a function
`B -> Nat -> Option B` (`none` models `deserialize16` producing an empty
move or `makeMove` failing).

Machine integers are modelled as `Nat`/`Int` with explicit `% 256` /
`% 65536` where the code truncates (`uint8_t` length bytes, `uint16_t`
serialized moves).  Floats (`gm_`, gradient cells) are modelled as `Rat`;
the claims proved about them depend only on ordering and exact small
values, not on rounding.
-/

namespace Sunfish

/-! ## Training-set codec (BatchLearning.cpp, generateTraningData writer /
generateGradient reader)

The writer (BatchLearning.cpp lines 202-225) emits, under the mutex, one
complete group: the `CompactBoard` blob, then for every recorded PV a
length byte `uint8_t(pv.size()) + 1` followed by the 16-bit serialized
moves (little endian), then a single `0x00` terminator byte.  A stream is
a `List Nat` of byte values. -/

/-- The two little-endian bytes the writer emits for one serialized move
(`trainingData_->write(&m, sizeof(uint16_t))`). -/
def serializeMove (m : Nat) : List Nat :=
  [m % 256, m / 256 % 256]

/-- Bytes of one PV line: the `uint8_t` length byte
(`static_cast<uint8_t>(pv.size()) + 1`, hence a value `(pv.size()+1) % 256`)
followed by the serialized moves. -/
def encodeLine (pv : List Nat) : List Nat :=
  (pv.length + 1) % 256 :: (pv.map serializeMove).flatten

/-- Bytes of one complete group: `CompactBoard` blob, the lines, the
`0x00` terminator. -/
def encodeGroup (cb : List Nat) (lines : List (List Nat)) : List Nat :=
  cb ++ (lines.map encodeLine).flatten ++ [0]

/-- Reassemble `uint16_t` values from consecutive byte pairs, as the
reader's `trainingData.read(&m, sizeof(uint16_t))` does. -/
def decodeU16s : List Nat → List Nat
  | lo :: hi :: rest => (lo + 256 * hi) :: decodeU16s rest
  | _ => []

/-- Replay a list of deserialized moves on a board, as the loop body of
`readPV` does: once a move fails (`move.isEmpty() || !board.makeMove(move)`,
modelled by `app b m = none`) the `ok` flag is cleared and, by
short-circuit evaluation, no later move is applied; the board stays at the
partially replayed position.  Returns the final board and the `ok` flag. -/
def replayMoves {B : Type} (app : B → Nat → Option B) (b : B) (ms : List Nat) : B × Bool :=
  ms.foldl
    (fun s m =>
      if s.2 then
        match app s.1 m with
        | some b2 => (b2, true)
        | none => (s.1, false)
      else s)
    (b, true)

/-- The `readPV` lambda of `BatchLearning::generateGradient` (lines
358-379): read the length byte; `0` ends the group (`return false`);
otherwise read `length - 1` serialized moves (all of them, regardless of
replay failures, keeping the stream aligned) and replay them on a copy of
the root.  It returns `true` even when a move failed: the computed `ok`
flag only stops the replay.  Result: (remaining stream, board, returned
flag). -/
def readPV {B : Type} (app : B → Nat → Option B) (root : B) :
    List Nat → List Nat × B × Bool
  | [] => ([], root, false)
  | l :: rest =>
    if l = 0 then (rest, root, false)
    else
      (rest.drop (2 * (l - 1)),
       (replayMoves app root (decodeU16s (rest.take (2 * (l - 1))))).1,
       true)

/-- The sibling-line loop of `generateGradient` (lines 385-403): call
`readPV` on a fresh copy of the root until it returns `false`; every line
for which it returned `true` is evaluated and deposited.  We return the
boards of those lines.  `fuel` bounds the recursion; every successful
`readPV` consumes at least one byte, so `initial stream length` fuel is
always enough. -/
def readLines {B : Type} (app : B → Nat → Option B) (root : B) :
    Nat → List Nat → List B
  | 0, _ => []
  | fuel + 1, s =>
    let r := readPV app root s
    if r.2.2 then r.2.1 :: readLines app root fuel r.1 else []

/-- One iteration of the group loop of `generateGradient` (lines 346-404):
read the `CompactBoard` (EOF there, i.e. fewer than `cbSize` bytes left,
ends cleanly with `none`), build the root via the external board
constructor `mk`, read the expert line ignoring `readPV`'s return value
(line 382), then read the sibling lines.  Result: root board, expert-leaf
board, and the boards of the sibling lines that get evaluated and
deposited. -/
def processGroup {B : Type} (cbSize : Nat) (mk : List Nat → B)
    (app : B → Nat → Option B) (s : List Nat) : Option (B × B × List B) :=
  if s.length < cbSize then none
  else
    let root := mk (s.take cbSize)
    let r0 := readPV app root (s.drop cbSize)
    some (root, r0.2.1, readLines app root r0.1.length r0.1)

/-- Concrete move-application function used in counterexamples: move value
`0` fails (an empty / unmakeable move), any other value extends the board,
which we represent as the list of moves made so far. -/
def appC5 : List Nat → Nat → Option (List Nat) :=
  fun b m => if m = 0 then none else some (b ++ [m])

/-! ## Batch example generator (BatchLearning::generateTraningData, lines
117-226)

Moves are abstract values of a type `M`.  The alpha-beta searcher is the
out-of-scope black box, so the search of a sibling move `m` is abstracted
into the functions `valid` (did `board.makeMove(m)` succeed), `val` (the
negated search score `-info.eval`) and `pvs` (the PV returned for `m`);
the expert search result is the pair `(val0, pv0)`.  `mate` is the
`Value::Mate` constant.  The depth bookkeeping (`newDepth`,
`setSearcherDepth`, history clearing) only configures the searcher and has
no observable effect in this abstraction. -/

/-- Result of one call of the batch generator on one position: the group
written to the training file (`none` when the function returned before the
write), the sibling moves that were actually searched, and the increments
of the shared counters `totalMoves_` and `outOfWindLoss_`. -/
structure BatchGenResult (M : Type) where
  group : Option (List (M × List M))
  searched : List M
  dTotal : Nat
  dOow : Nat
deriving DecidableEq

/-- The sibling loop (lines 167-200): skip the expert move `move0`, skip
moves rejected by `makeMove`, skip scores `≤ alpha`, count scores `≥ beta`
into `outOfWindLoss_`, and record everything strictly inside the window as
a sibling line.  Returns (recorded lines, searched moves, out-of-window
count). -/
def batchSibLoop {M : Type} [DecidableEq M] (move0 : M) (valid : M → Bool) (val : M → Int)
    (pvs : M → List M) (alpha beta : Int) : List M → List (M × List M) × List M × Nat
  | [] => ([], [], 0)
  | m :: rest =>
    let r := batchSibLoop move0 valid val pvs alpha beta rest
    if m = move0 then r
    else if valid m = false then r
    else if val m ≤ alpha then (r.1, m :: r.2.1, r.2.2)
    else if beta ≤ val m then (r.1, m :: r.2.1, r.2.2 + 1)
    else ((m, pvs m) :: r.1, m :: r.2.1, r.2.2)

/-- Embedding of `BatchLearning::generateTraningData` for one position (lines 117-226):
return early when fewer than two legal moves were generated, or when the
expert score is a mate score (`val0 <= -Mate || val0 >= Mate`); otherwise
count the position into `totalMoves_`, set the window
`(val0 - 256, val0 + 256)`, run the sibling loop, and write the group
`expert line :: sibling lines` when the line list is non-empty (the list
always contains the expert line, pushed at line 157 before the loop). -/
def generateTraningData {M : Type} [DecidableEq M] (mate : Int) (move0 : M) (moves : List M)
    (val0 : Int) (pv0 : List M) (valid : M → Bool) (val : M → Int) (pvs : M → List M) :
    BatchGenResult M :=
  if moves.length < 2 then ⟨none, [], 0, 0⟩
  else if val0 ≤ -mate ∨ mate ≤ val0 then ⟨none, [], 0, 0⟩
  else
    let r := batchSibLoop move0 valid val pvs (val0 - 256) (val0 + 256) moves
    let lines := (move0, pv0) :: r.1
    ⟨if lines.isEmpty then none else some lines, r.2.1, 1, r.2.2⟩

/-- A sibling move that gets searched: not the expert move and accepted by
`makeMove`. -/
def searchedSib {M : Type} [DecidableEq M] (move0 : M) (valid : M → Bool) (m : M) : Bool :=
  decide (m ≠ move0) && valid m

/-- A searched sibling whose negated score lies strictly inside the
window: it is recorded as a training line. -/
def inWindowSib {M : Type} [DecidableEq M] (move0 : M) (valid : M → Bool) (val : M → Int)
    (alpha beta : Int) (m : M) : Bool :=
  searchedSib move0 valid m && decide (alpha < val m) && decide (val m < beta)

/-- A searched sibling whose negated score reaches `beta`: it increments
`outOfWindLoss_`. -/
def oowSib {M : Type} [DecidableEq M] (move0 : M) (valid : M → Bool) (val : M → Int)
    (alpha beta : Int) (m : M) : Bool :=
  searchedSib move0 valid m && decide (alpha < val m) && decide (beta ≤ val m)

/-- One position of a game record, as fed to the batch generator by the
per-game loop (lines 242-255), with the search black box bundled in. -/
structure BatchPos (M : Type) where
  move0 : M
  moves : List M
  val0 : Int
  pv0 : List M
  valid : M → Bool
  val : M → Int
  pvs : M → List M

/-- Run the batch generator on one recorded position. -/
def BatchPos.run {M : Type} [DecidableEq M] (mate : Int) (p : BatchPos M) : BatchGenResult M :=
  generateTraningData mate p.move0 p.moves p.val0 p.pv0 p.valid p.val p.pvs

/-- The counters `(totalMoves_, outOfWindLoss_)` after a sequence of
positions has been processed, both starting from 0 as `iterate()` resets
them (lines 527-528). -/
def runCounters {M : Type} [DecidableEq M] (mate : Int) (ps : List (BatchPos M)) : Nat × Nat :=
  ps.foldl (fun c p => (c.1 + (p.run mate).dTotal, c.2 + (p.run mate).dOow)) (0, 0)

/-! ## Online example generator (OnlineLearning::genGradient, lines
77-175) -/

/-- Result of one online job: the sibling moves that were searched, the
moves whose leaf boards received a `-g` sibling deposit, the increment of
`miniBatchScale_`, and the increment of `errorCount_`. -/
structure OnlineGenResult (M : Type) where
  searched : List M
  deposits : List M
  scaleInc : Nat
  errorInc : Nat
deriving DecidableEq

/-- The online sibling loop (lines 125-162) over the shuffled move list:
stop once `count >= NUMBER_OF_SIBLING_NODES = 16`; skip moves rejected by
`makeMove`; each searched move increments `count` and `errorCount_`;
a move whose negated score falls outside `(alpha, beta)` is skipped,
otherwise its PV leaf receives a `-g` deposit.  There is no test against
the expert move: the loop runs over all generated moves. -/
def onlineSibLoop {M : Type} (valid : M → Bool) (val : M → Int) (alpha beta : Int) :
    List M → Nat → List M × List M × Nat
  | [], _ => ([], [], 0)
  | m :: rest, count =>
    if 16 ≤ count then ([], [], 0)
    else if valid m then
      let r := onlineSibLoop valid val alpha beta rest (count + 1)
      (m :: r.1, if val m ≤ alpha ∨ beta ≤ val m then r.2.1 else m :: r.2.1, r.2.2 + 1)
    else onlineSibLoop valid val alpha beta rest count

/-- Embedding of `OnlineLearning::genGradient` for one job (lines 77-175): return early
when fewer than two moves were generated or when the expert score is a
mate score; otherwise run the sibling loop with the window
`(val0 - hingeMargin, val0 + MAX_HINGE_MARGIN)` (the margin comes from the
external `Progression` module and is passed in), then deposit the expert
leaf with the summed gradient and add `NUMBER_OF_SIBLING_NODES = 16` to
`miniBatchScale_`.  `move0` is the expert move of the job; the sibling
loop does not mention it. -/
def genGradient {M : Type} (mate : Int) (move0 : M) (moves : List M) (val0 : Int)
    (margin : Int) (valid : M → Bool) (val : M → Int) : OnlineGenResult M :=
  if moves.length < 2 then ⟨[], [], 0, 0⟩
  else if val0 ≤ -mate ∨ mate ≤ val0 then ⟨[], [], 0, 0⟩
  else
    let r := onlineSibLoop valid val (val0 - margin) (val0 + 256) moves 0
    ⟨r.1, r.2.1, 16, r.2.2⟩

/-- One job of the online learner (`OnlineLearning::Job`: a compact board
and the expert move), bundled with the search black box. -/
structure OLJob (M : Type) where
  move0 : M
  moves : List M
  val0 : Int
  margin : Int
  valid : M → Bool
  val : M → Int

/-- A job reaches the deposit phase of `genGradient`: at least two
generated moves and a non-mate expert score. -/
def OLJob.reaches {M : Type} (mate : Int) (j : OLJob M) : Prop :=
  2 ≤ j.moves.length ∧ -mate < j.val0 ∧ j.val0 < mate

instance {M : Type} (mate : Int) (j : OLJob M) : Decidable (j.reaches mate) := by
  unfold OLJob.reaches
  infer_instance

/-- Value of `miniBatchScale_` at the end of a mini-batch whose jobs are `jobs`:
it is reset to 0 by `miniBatch()` (line 214) and incremented only at the
end of `genGradient` (line 173). -/
def miniBatchScale {M : Type} (mate : Int) (jobs : List (OLJob M)) : Nat :=
  (jobs.map fun j =>
    (genGradient mate j.move0 j.moves j.val0 j.margin j.valid j.val).scaleInc).sum

/-- The `norm` helper of OnlineLearning.cpp (lines 61-70) with
`n = NORM * ValuePair::PositionalScale`; `pScale` is the external
`PositionalScale` constant. -/
def normOnline (pScale x : Rat) : Rat :=
  if 0 < x then -(pScale / 1000000) else if x < 0 then pScale / 1000000 else 0

/-- The `update1` lambda of `OnlineLearning::miniBatch` (lines 246-255)
for one cell: `f = g / miniBatchScale_ + norm(w); g = 0; w += f;
u += f * miniBatchCount_` — the division by `miniBatchScale_` is
unguarded. -/
def update1 (scale : Nat) (mbcount : Nat) (pScale : Rat) (g w u : Rat) : Rat × Rat × Rat :=
  let f := g / (scale : Rat) + normOnline pScale w
  (0, w + f, u + f * (mbcount : Rat))

/-! ## Parameter updater (BatchLearning::updateParameters, lines 413-458)

The KPP and KKP tables are each modelled as an indexed family
`Fin n -> value`; `mirror` is the pairing of cells that represent the same
feature under left-right board mirroring (evaluator-internal, out of
scope). -/

/-- The `norm` helper of BatchLearning.cpp (lines 56-64), `NORM = 1e-2`,
applied to an (integral) evaluator weight. -/
def normBatch (e : Int) : Rat :=
  if 0 < e then -(1 / 100) else if e < 0 then 1 / 100 else 0

/-- One call of `rand_.getBit()`: a random bit as an integer step. -/
def bitVal (b : Bool) : Int := if b then 1 else 0

/-- The `update` lambda of `updateParameters` (lines 418-429) for one
cell: `g += norm(e)`, then move `e` by `rand.getBit() + rand.getBit()`
toward the gradient sign, leaving `e` unchanged when the adjusted gradient
is zero. -/
def updateCell (g : Rat) (e : Int) (b1 b2 : Bool) : Int :=
  let g2 := g + normBatch e
  if 0 < g2 then e + bitVal b1 + bitVal b2
  else if g2 < 0 then e - bitVal b1 - bitVal b2
  else e

/-- Modelled from the spec: `LearningTemplates::symmetrize`
(LearningTemplates.h is not among the sources).  Weight pass, combine
`a = b`: for every mirror pair one side is copied over the other, so every
cell ends up with the value of the larger-indexed member of its pair;
self-mirrored cells are untouched. -/
def symmetrizeCopy {n : Nat} (mirror : Fin n → Fin n) (f : Fin n → Int) : Fin n → Int :=
  fun i => if mirror i < i then f i else f (mirror i)

/-- Modelled from the spec: `LearningTemplates::symmetrize`, gradient
pass, combine `a = b = a + b`: both members of a mirror pair are replaced
by their sum. -/
def symmetrizeSum {n : Nat} (mirror : Fin n → Fin n) (f : Fin n → Rat) : Fin n → Rat :=
  fun i => if mirror i = i then f i else f i + f (mirror i)

/-- Embedding of `BatchLearning::updateParameters` on one table (lines 413-450):
symmetrize the gradient by summation, update every cell from its gradient
with two random bits, then symmetrize the evaluator weights by copying one
mirror half over the other.  (`updateMaterial` and the max/magnitude
statistics do not touch the weight table.) -/
def updateParameters {n : Nat} (mirror : Fin n → Fin n) (g : Fin n → Rat) (e : Fin n → Int)
    (b1 b2 : Fin n → Bool) : Fin n → Int :=
  symmetrizeCopy mirror fun i => updateCell (symmetrizeSum mirror g i) (e i) (b1 i) (b2 i)

/-! ## Material table (BatchLearning::updateMaterial, lines 463-513, and
searcher/eval/Material.cpp) -/

/-- The 14 piece kinds (Material.cpp switches over the colored variants;
material is color-independent). -/
inductive Piece where
  | pawn | lance | knight | silver | gold | bishop | rook
  | tokin | proLance | proKnight | proSilver | horse | dragon | king
deriving DecidableEq, Repr

/-- The 13 trainable material slots, in the order the pointer array `p`
is filled (lines 466-478); the king is not trainable. -/
def slots : List Piece :=
  [.pawn, .lance, .knight, .silver, .gold, .bishop, .rook,
   .tokin, .proLance, .proKnight, .proSilver, .horse, .dragon]

/-- The fixed update schedule assigned to the sorted-and-shuffled slots
(lines 490-494): `p[0]=p[1]=-2, p[2..4]=-1, p[5..7]=0, p[8..10]=+1,
p[11..12]=+2`. -/
def scheduleList : List Int := [-2, -2, -1, -1, -1, 0, 0, 0, 1, 1, 1, 2, 2]

/-- Delta assigned to the slot at position `j` of the pointer array. -/
def schedule (j : Nat) : Int := scheduleList.getD j 0

/-- The ascending sort of the slot pointers by gradient value
(`std::sort(p, p + 13, ...)`, lines 481-483). -/
def sortedSlots (gm : Piece → Rat) : List Piece :=
  List.insertionSort (fun a b => gm a ≤ gm b) slots

/-- Result of `updateMaterial`: new base values and the regenerated
exchange table. -/
structure MaterialResult where
  base : Piece → Int
  ex : Piece → Int

/-- The unpromoted counterpart of a piece kind. -/
def unpromote : Piece → Piece
  | .tokin => .pawn
  | .proLance => .lance
  | .proKnight => .knight
  | .proSilver => .silver
  | .horse => .bishop
  | .dragon => .rook
  | p => p

/-- Modelled from the spec: `material::updateEx` (declared in Material.h,
which is not among the sources) regenerates the exchange table from the
base values; the spec describes an exchange value as
`base + base-when-captured-by-opponent`, i.e. the captured piece drops to
its unpromoted kind. -/
def updateEx (b : Piece → Int) : Piece → Int :=
  fun s => b s + b (unpromote s)

/-- Embedding of `BatchLearning::updateMaterial` (lines 463-513).  The composite of
`std::sort` and the two `rand_.shuffle` calls leaves in `p` some
reordering `lo ++ hi` of the sorted slot list, where `lo` rearranges its
first six entries and `hi` the remaining seven; the theorems quantify over
those.  The code then stores `schedule` values through the pointers and
adds them to the 13 global base values (a slot's delta is the schedule
entry at its position in `p`), and finally calls `material::updateEx()`. -/
def updateMaterial (gm : Piece → Rat) (base : Piece → Int) (lo hi : List Piece) :
    MaterialResult :=
  let p := lo ++ hi
  let nb : Piece → Int := fun s => base s + schedule (p.indexOf s)
  ⟨nb, updateEx nb⟩

/-- Embedding of `material::piecePromote` (Material.cpp lines 91-117) over the base
values: the value gained by promotion. -/
def piecePromote (b : Piece → Int) : Piece → Int
  | .pawn => b .tokin - b .pawn
  | .lance => b .proLance - b .lance
  | .knight => b .proKnight - b .knight
  | .silver => b .proSilver - b .silver
  | .bishop => b .horse - b .bishop
  | .rook => b .dragon - b .rook
  | _ => 0

/-- The spec constraint: every promoted piece is worth at least its
unpromoted counterpart. -/
def materialOk (b : Piece → Int) : Prop :=
  b .pawn ≤ b .tokin ∧ b .lance ≤ b .proLance ∧ b .knight ≤ b .proKnight ∧
  b .silver ≤ b .proSilver ∧ b .bishop ≤ b .horse ∧ b .rook ≤ b .dragon

instance (b : Piece → Int) : Decidable (materialOk b) := by
  unfold materialOk
  infer_instance

/-- Witness inputs for C4: all gradients zero (the stable insertion sort
then keeps the slot order) and the identity reordering of both halves. -/
def gmC4 : Piece → Rat := fun _ => 0

def baseC4 : Piece → Int := fun _ => 100

def loC4 : List Piece := [.pawn, .lance, .knight, .silver, .gold, .bishop]

def hiC4 : List Piece := [.rook, .tokin, .proLance, .proKnight, .proSilver, .horse, .dragon]

/-- Gradient values for the C7 counterexample: the expert games pulled the
tokin gradient lowest and the pawn gradient highest, so after sorting the
tokin slot sits first (delta -2) and the pawn slot last (delta +2). -/
def gmC7 : Piece → Rat
  | .pawn => 12
  | .lance => 1
  | .knight => 2
  | .silver => 3
  | .gold => 4
  | .bishop => 5
  | .rook => 6
  | .tokin => 0
  | .proLance => 7
  | .proKnight => 8
  | .proSilver => 9
  | .horse => 10
  | .dragon => 11
  | .king => 0

def baseC7 : Piece → Int := fun _ => 100

def loC7 : List Piece := [.tokin, .lance, .knight, .silver, .gold, .bishop]

def hiC7 : List Piece := [.rook, .proLance, .proKnight, .proSilver, .horse, .dragon, .pawn]

/-- Base values with the exact margin 4 for every promoted pair, used in
the C7 witness. -/
def baseC7m : Piece → Int
  | .pawn => 100
  | .tokin => 104
  | .lance => 200
  | .proLance => 204
  | .knight => 300
  | .proKnight => 304
  | .silver => 400
  | .proSilver => 404
  | .bishop => 500
  | .horse => 504
  | .rook => 600
  | .dragon => 604
  | .gold => 450
  | .king => 0

end Sunfish

namespace Sunfish

theorem decodeU16s_encode (pv : List Nat) (h : ∀ m ∈ pv, m < 65536) :
    decodeU16s (pv.map serializeMove).flatten = pv := by
  induction pv with
  | nil => rfl
  | cons m rest ih =>
    have hm : m < 65536 := h m (List.mem_cons_self _ _)
    have hrest : ∀ x ∈ rest, x < 65536 := fun x hx => h x (List.mem_cons_of_mem _ hx)
    have hsplit : ((m :: rest).map serializeMove).flatten
        = m % 256 :: m / 256 % 256 :: (rest.map serializeMove).flatten := by
      simp [serializeMove]
    rw [hsplit, decodeU16s, ih hrest]
    congr 1
    omega

theorem length_join_serialize (pv : List Nat) :
    ((pv.map serializeMove).flatten).length = 2 * pv.length := by
  induction pv with
  | nil => rfl
  | cons m rest ih =>
    simp only [List.map_cons, List.flatten_cons, List.length_append, ih, serializeMove,
      List.length_cons, List.length_nil]
    omega

theorem readPV_encodeLine {B : Type} (app : B → Nat → Option B) (root : B)
    (pv tail : List Nat) (hlen : pv.length < 255) (hm : ∀ m ∈ pv, m < 65536) :
    readPV app root (encodeLine pv ++ tail) =
      (tail, (replayMoves app root pv).1, true) := by
  have hmod : (pv.length + 1) % 256 = pv.length + 1 := Nat.mod_eq_of_lt (by omega)
  have hbytes : ((pv.map serializeMove).flatten).length = 2 * pv.length :=
    length_join_serialize pv
  simp only [encodeLine, List.cons_append, readPV, hmod]
  rw [if_neg (by omega)]
  have hsub : pv.length + 1 - 1 = pv.length := by omega
  rw [hsub]
  have htake : ((pv.map serializeMove).flatten ++ tail).take (2 * pv.length) =
      (pv.map serializeMove).flatten := by
    rw [List.take_append_eq_append_take, List.take_of_length_le (by omega),
      hbytes, Nat.sub_self, List.take_zero, List.append_nil]
  have hdrop : ((pv.map serializeMove).flatten ++ tail).drop (2 * pv.length) = tail := by
    rw [List.drop_append_eq_append_drop, List.drop_of_length_le (by omega),
      hbytes, Nat.sub_self, List.drop_zero, List.nil_append]
  rw [htake, hdrop, decodeU16s_encode pv hm]

theorem readLines_encode {B : Type} (app : B → Nat → Option B) (root : B)
    (lines : List (List Nat)) (rest : List Nat) :
    ∀ fuel, lines.length + 1 ≤ fuel →
    (∀ pv ∈ lines, pv.length < 255 ∧ ∀ m ∈ pv, m < 65536) →
    readLines app root fuel ((lines.map encodeLine).flatten ++ 0 :: rest) =
      lines.map (fun pv => (replayMoves app root pv).1) := by
  induction lines with
  | nil =>
    intro fuel hfuel _
    obtain ⟨f, rfl⟩ : ∃ f, fuel = f + 1 := ⟨fuel - 1, by omega⟩
    simp [readLines, readPV]
  | cons pv ls ih =>
    intro fuel hfuel hl
    obtain ⟨f, rfl⟩ : ∃ f, fuel = f + 1 := ⟨fuel - 1, by omega⟩
    have hpv := hl pv (List.mem_cons_self _ _)
    have hls : ∀ q ∈ ls, q.length < 255 ∧ ∀ m ∈ q, m < 65536 :=
      fun q hq => hl q (List.mem_cons_of_mem _ hq)
    have hstep := readPV_encodeLine app root pv ((ls.map encodeLine).flatten ++ 0 :: rest)
      hpv.1 hpv.2
    have hthis : ((pv :: ls).map encodeLine).flatten ++ 0 :: rest
        = encodeLine pv ++ ((ls.map encodeLine).flatten ++ 0 :: rest) := by
      simp [List.flatten_cons]
    rw [readLines, hthis, hstep]
    simp only [List.map_cons]
    have hfuel2 : ls.length + 1 ≤ f := by
      simp only [List.length_cons] at hfuel; omega
    rw [ih f hfuel2 hls]
    simp

theorem length_flatten_encode_ge (ls : List (List Nat)) :
    ls.length ≤ ((ls.map encodeLine).flatten).length := by
  induction ls with
  | nil => simp
  | cons pv t ih =>
    simp only [List.map_cons, List.flatten_cons, List.length_append, List.length_cons, encodeLine]
    omega

/-- A complete group written by the batch writer, followed by any further
bytes, is consumed by the reader exactly up to its terminator: the root is
built from the very `CompactBoard` bytes that were written, the expert
line and every sibling line each produce exactly one replayed board (even
when a move of the line fails to apply), and no line is lost or invented. -/
theorem processGroup_encode {B : Type} (cbSize : Nat) (mk : List Nat → B)
    (app : B → Nat → Option B) (cb l0 : List Nat) (ls : List (List Nat)) (rest : List Nat)
    (hcb : cb.length = cbSize)
    (hl : ∀ pv ∈ l0 :: ls, pv.length < 255 ∧ ∀ m ∈ pv, m < 65536) :
    processGroup cbSize mk app (encodeGroup cb (l0 :: ls) ++ rest) =
      some (mk cb, (replayMoves app (mk cb) l0).1,
        ls.map fun pv => (replayMoves app (mk cb) pv).1) := by
  have hl0 := hl l0 (List.mem_cons_self _ _)
  have hls : ∀ q ∈ ls, q.length < 255 ∧ ∀ m ∈ q, m < 65536 :=
    fun q hq => hl q (List.mem_cons_of_mem _ hq)
  have hJ : encodeGroup cb (l0 :: ls) ++ rest
      = cb ++ (encodeLine l0 ++ ((ls.map encodeLine).flatten ++ 0 :: rest)) := by
    simp [encodeGroup, List.flatten_cons]
  rw [hJ]
  have htake : (cb ++ (encodeLine l0 ++ ((ls.map encodeLine).flatten ++ 0 :: rest))).take cbSize
      = cb := by
    rw [List.take_append_eq_append_take, List.take_of_length_le (le_of_eq hcb), hcb,
      Nat.sub_self, List.take_zero, List.append_nil]
  have hdrop : (cb ++ (encodeLine l0 ++ ((ls.map encodeLine).flatten ++ 0 :: rest))).drop cbSize
      = encodeLine l0 ++ ((ls.map encodeLine).flatten ++ 0 :: rest) := by
    rw [List.drop_append_eq_append_drop, List.drop_of_length_le (le_of_eq hcb), hcb,
      Nat.sub_self, List.drop_zero, List.nil_append]
  have hstep := readPV_encodeLine app (mk cb) l0 ((ls.map encodeLine).flatten ++ 0 :: rest)
    hl0.1 hl0.2
  have hfuel : ls.length + 1 ≤ ((ls.map encodeLine).flatten ++ 0 :: rest).length := by
    have := length_flatten_encode_ge ls
    simp only [List.length_append, List.length_cons]
    omega
  have hlen : ¬ (cb ++ (encodeLine l0 ++ ((ls.map encodeLine).flatten ++ 0 :: rest))).length
      < cbSize := by
    simp [hcb]
  simp only [processGroup, htake, hdrop, hstep, if_neg hlen]
  rw [readLines_encode app (mk cb) ls rest _ hfuel hls]

theorem replayMoves_collect (cbv acc pv : List Nat) :
    replayMoves (fun (b : List Nat × List Nat) m => some (b.1, b.2 ++ [m])) (cbv, acc) pv
      = ((cbv, acc ++ pv), true) := by
  induction pv generalizing acc with
  | nil => simp [replayMoves]
  | cons m ms ih =>
    simp only [replayMoves, List.foldl_cons] at *
    simpa [List.append_assoc] using ih (acc ++ [m])

/-- C2.  Training-file round trip: a group written by the batch writer (a
`CompactBoard`, the expert line, the sibling lines, each line a length
byte `1 + number of stored moves` plus the 16-bit moves, then a `0x00`
terminator) is read back by the `generateGradient` reader as the same
root-board bytes, the same lines with the same leading moves in the same
order, with no extra and no missing lines.  Boards are instantiated with a
collecting interpretation `(compact-board bytes, moves made)`, so the
reader output exhibits exactly which bytes and which moves it recovered. -/
theorem claimC2_theorem (cbSize : Nat) (cb l0 : List Nat) (ls : List (List Nat))
    (rest : List Nat) (hcb : cb.length = cbSize)
    (hl : ∀ pv ∈ l0 :: ls, pv.length < 255 ∧ ∀ m ∈ pv, m < 65536) :
    processGroup cbSize (fun bs => (bs, ([] : List Nat)))
        (fun b m => some (b.1, b.2 ++ [m])) (encodeGroup cb (l0 :: ls) ++ rest)
      = some ((cb, []), (cb, l0), ls.map fun pv => (cb, pv)) := by
  rw [processGroup_encode cbSize (fun bs => (bs, ([] : List Nat)))
    (fun b m => some (b.1, b.2 ++ [m])) cb l0 ls rest hcb hl]
  simp [replayMoves_collect]

/-- Witness for C2 at a concrete group (root bytes `[1, 2]`, expert line
`[300]`, sibling lines `[5]` and the empty line, trailing bytes `[9]`). -/
theorem claimC2_witness :
    processGroup 2 (fun bs => (bs, ([] : List Nat)))
        (fun b m => some (b.1, b.2 ++ [m]))
        (encodeGroup [1, 2] [[300], [5], []] ++ [9])
      = some (([1, 2], []), ([1, 2], [300]), [([1, 2], [5]), ([1, 2], [])]) := by
  have h := claimC2_theorem 2 [1, 2] [300] [[5], []] [9] rfl (by decide)
  simpa using h

/-- C5 (amended).  The `readPV` reader never skips a line: a line whose
move fails to deserialize or to make is replayed only up to the failure
(the rest of its bytes are still consumed, keeping the group aligned), and
that line is then evaluated and deposited at the partially replayed board
exactly like a healthy line; the remaining lines of the group are still
processed.  Formally: for any application function `app` (failures
included), every sibling line of a written group contributes exactly one
board, the one reached by `replayMoves`. -/
theorem claimC5_theorem {B : Type} (cbSize : Nat) (mk : List Nat → B)
    (app : B → Nat → Option B) (cb l0 : List Nat) (ls : List (List Nat)) (rest : List Nat)
    (hcb : cb.length = cbSize)
    (hl : ∀ pv ∈ l0 :: ls, pv.length < 255 ∧ ∀ m ∈ pv, m < 65536) :
    processGroup cbSize mk app (encodeGroup cb (l0 :: ls) ++ rest) =
      some (mk cb, (replayMoves app (mk cb) l0).1,
        ls.map fun pv => (replayMoves app (mk cb) pv).1) :=
  processGroup_encode cbSize mk app cb l0 ls rest hcb hl

/-- Witness for C5 (amended) at a concrete group: the sibling line
`[7, 0]` contains the failing move `0`, is replayed to the partial board
`[7]`, and still appears among the deposited boards. -/
theorem claimC5_witness :
    processGroup 1 (fun _ => ([] : List Nat)) appC5 (encodeGroup [42] [[5], [7, 0], [9]] ++ [])
      = some ([], [5], [[7], [9]]) := by
  have h := claimC5_theorem 1 (fun _ => ([] : List Nat)) appC5 [42] [5] [[7, 0], [9]] []
    rfl (by decide)
  simpa [appC5, replayMoves] using h

/-- C5, counterexample to the claim as stated: in the group
`(root, expert [5], siblings [7, 0] and [9])` the sibling line `[7, 0]`
fails at move `0` (the replay `ok` flag ends up `false`), yet the line is
NOT treated as empty and skipped: it is evaluated and deposits at the
partially replayed board `[7]`, which appears in the reader's deposit
list. -/
theorem claimC5_counterexample :
    processGroup 1 (fun _ => ([] : List Nat)) appC5 (encodeGroup [42] [[5], [7, 0], [9]] ++ [])
      = some ([], [5], [[7], [9]]) ∧
    (replayMoves appC5 [] [7, 0]).2 = false ∧
    ¬ processGroup 1 (fun _ => ([] : List Nat)) appC5
        (encodeGroup [42] [[5], [7, 0], [9]] ++ []) = some ([], [5], [[9]]) := by
  refine ⟨by decide, by decide, by decide⟩

/-- C10.  The stored length byte is exactly `(pv.length + 1) % 256`
(the `uint8_t` cast), and a line with exactly 255 stored moves is written
with length byte `0`, which the reader takes as the group terminator: it
stops the group right there, leaving the 510 move bytes unconsumed. -/
theorem claimC10_theorem (pv : List Nat) :
    (encodeLine pv).head? = some ((pv.length + 1) % 256) ∧
    (pv.length = 255 →
      ∀ (B : Type) (app : B → Nat → Option B) (root : B) (rest : List Nat),
        readPV app root (encodeLine pv ++ rest) =
          ((pv.map serializeMove).flatten ++ rest, root, false)) := by
  refine ⟨rfl, fun h255 B app root rest => ?_⟩
  have h0 : (pv.length + 1) % 256 = 0 := by rw [h255]
  simp only [encodeLine, h0, List.cons_append]
  rw [readPV, if_pos rfl]

/-- Witness for C10: a line of exactly 255 moves (all `3`) gets length
byte `0` and is taken as a terminator by the reader. -/
theorem claimC10_witness :
    (encodeLine (List.replicate 255 3)).head? = some 0 ∧
    readPV (fun (b : Unit) (_ : Nat) => some b) () (encodeLine (List.replicate 255 3) ++ [8]) =
      (((List.replicate 255 3).map serializeMove).flatten ++ [8], (), false) := by
  have h := claimC10_theorem (List.replicate 255 3)
  have hlen : (List.replicate 255 (3 : Nat)).length = 255 := List.length_replicate _ _
  constructor
  · rw [h.1, hlen]
  · exact h.2 hlen Unit (fun b _ => some b) () [8]

theorem batchSibLoop_eq {M : Type} [DecidableEq M] (move0 : M) (valid : M → Bool)
    (val : M → Int) (pvs : M → List M) (alpha beta : Int) (l : List M) :
    batchSibLoop move0 valid val pvs alpha beta l =
      ((l.filter (inWindowSib move0 valid val alpha beta)).map (fun m => (m, pvs m)),
       l.filter (searchedSib move0 valid),
       l.countP (oowSib move0 valid val alpha beta)) := by
  induction l with
  | nil => rfl
  | cons m t ih =>
    rw [batchSibLoop, ih]
    by_cases h1 : m = move0
    · simp [h1, inWindowSib, searchedSib, oowSib, List.filter_cons, List.countP_cons]
    · by_cases h2 : valid m
      · by_cases h3 : val m ≤ alpha
        · have h3n : ¬ alpha < val m := not_lt.mpr h3
          simp [h1, h2, h3, h3n, inWindowSib, searchedSib, oowSib, List.filter_cons,
            List.countP_cons]
        · have h3p : alpha < val m := not_le.mp h3
          by_cases h4 : beta ≤ val m
          · have h4n : ¬ val m < beta := not_lt.mpr h4
            simp [h1, h2, h3, h3p, h4, h4n, inWindowSib, searchedSib, oowSib,
              List.filter_cons, List.countP_cons]
          · have h4p : val m < beta := not_le.mp h4
            have h4n : ¬ beta ≤ val m := h4
            simp [h1, h2, h3, h3p, h4p, h4n, inWindowSib, searchedSib, oowSib,
              List.filter_cons, List.countP_cons]
      · have h2f : valid m = false := by simpa using h2
        simp [h1, h2f, inWindowSib, searchedSib, oowSib, List.filter_cons, List.countP_cons]

/-- C1 (amended).  Whenever a position passes the two early-return checks
(at least two generated moves, non-mate expert score), a group IS appended
to the training file — the line list always contains the expert line, so
the emptiness guard never blocks the write.  The group consists of the
expert line followed by exactly the sibling lines whose scores fell
strictly inside the window, possibly none. -/
theorem claimC1_theorem {M : Type} [DecidableEq M] (mate : Int) (move0 : M) (moves : List M)
    (val0 : Int) (pv0 : List M) (valid : M → Bool) (val : M → Int) (pvs : M → List M)
    (h2 : 2 ≤ moves.length) (hlo : -mate < val0) (hhi : val0 < mate) :
    (generateTraningData mate move0 moves val0 pv0 valid val pvs).group =
      some ((move0, pv0) ::
        (moves.filter (inWindowSib move0 valid val (val0 - 256) (val0 + 256))).map
          (fun m => (m, pvs m))) := by
  unfold generateTraningData
  rw [if_neg (by omega), if_neg (by omega)]
  simp [batchSibLoop_eq]

/-- Witness for C1 (amended): a position with three legal moves, one
sibling in the window (`val 1 = 100`) and one outside (`val 2 = 1000`),
writes the group `expert :: [sibling 1]`. -/
theorem claimC1_witness :
    (generateTraningData (M := Nat) 30000 0 [0, 1, 2] 0 [] (fun _ => true)
        (fun m => if m = 1 then 100 else 1000) (fun _ => [])).group
      = some [(0, []), (1, [])] := by
  have h := claimC1_theorem 30000 0 [0, 1, 2] 0 [] (fun _ => true)
    (fun m => if m = 1 then 100 else 1000) (fun _ => [])
    (by decide) (by decide) (by decide)
  rw [h]
  decide

/-- C1, counterexample to the claim as stated: a position whose only
sibling scores out of the window (`1000 ≥ beta = 256`), so that NO
sibling line falls inside the window, still writes a group — it consists
of the expert line alone.  (`group = some [expert]`, `searched = [1]`,
`totalMoves_` increment 1, `outOfWindLoss_` increment 1.) -/
theorem claimC1_counterexample :
    generateTraningData (M := Nat) 30000 0 [0, 1] 0 [] (fun _ => true) (fun _ => 1000)
        (fun _ => [])
      = ⟨some [(0, [])], [1], 1, 1⟩ := by
  decide

/-- Per-position bound used for C8: one position increments
`outOfWindLoss_` by at most the number of generated moves (each increment
comes from a distinct searched sibling). -/
theorem dOow_le {M : Type} [DecidableEq M] (mate : Int) (p : BatchPos M) :
    (p.run mate).dOow ≤ p.moves.length := by
  unfold BatchPos.run generateTraningData
  by_cases hA : p.moves.length < 2
  · simp [hA]
  · by_cases hB : p.val0 ≤ -mate ∨ mate ≤ p.val0
    · simp [hA, hB]
    · simp only [if_neg hA, if_neg hB, batchSibLoop_eq]
      exact List.countP_le_length _

/-- C8 (amended).  The invariant `outOfWindLoss_ ≤ totalMoves_` claimed by
the spec does not hold; the valid bound is that `outOfWindLoss_` never
exceeds the total number of generated legal moves over all processed
positions (each counted position contributes at most its own move-list
length). -/
theorem claimC8_theorem {M : Type} [DecidableEq M] (mate : Int) (ps : List (BatchPos M)) :
    (runCounters mate ps).2 ≤ (ps.map fun p => p.moves.length).sum := by
  suffices h : ∀ c : Nat × Nat,
      ((ps.foldl (fun c p => (c.1 + (p.run mate).dTotal, c.2 + (p.run mate).dOow)) c).2
        ≤ c.2 + (ps.map fun p => p.moves.length).sum) by
    simpa [runCounters] using h (0, 0)
  induction ps with
  | nil => intro c; simp
  | cons p t ih =>
    intro c
    simp only [List.foldl_cons, List.map_cons, List.sum_cons]
    have h1 := dOow_le mate p
    have h2 := ih (c.1 + (p.run mate).dTotal, c.2 + (p.run mate).dOow)
    simp only at h2
    omega

/-- C8, counterexample to the claim as stated: a single position with two
out-of-window siblings (both scoring `1000 ≥ beta = 256`) leaves the
counters at `totalMoves_ = 1`, `outOfWindLoss_ = 2`, violating
`outOfWindLoss_ ≤ totalMoves_`. -/
theorem claimC8_counterexample :
    runCounters (M := Nat) 30000
        [⟨0, [0, 1, 2], 0, [], fun _ => true, fun _ => 1000, fun _ => []⟩] = (1, 2) ∧
    ¬ ((runCounters (M := Nat) 30000
        [⟨0, [0, 1, 2], 0, [], fun _ => true, fun _ => 1000, fun _ => []⟩]).2
      ≤ (runCounters (M := Nat) 30000
        [⟨0, [0, 1, 2], 0, [], fun _ => true, fun _ => 1000, fun _ => []⟩]).1) := by
  refine ⟨by decide, by decide⟩

theorem onlineSibLoop_eq {M : Type} (valid : M → Bool) (val : M → Int) (alpha beta : Int) :
    ∀ (l : List M) (c : Nat),
      onlineSibLoop valid val alpha beta l c =
        ((l.filter valid).take (16 - c),
         ((l.filter valid).take (16 - c)).filter
           (fun m => decide (alpha < val m) && decide (val m < beta)),
         ((l.filter valid).take (16 - c)).length) := by
  intro l
  induction l with
  | nil => intro c; simp [onlineSibLoop]
  | cons m t ih =>
    intro c
    rw [onlineSibLoop]
    by_cases h16 : 16 ≤ c
    · have hz : 16 - c = 0 := by omega
      simp [h16, hz]
    · by_cases hv : valid m
      · have hc : 16 - c = (16 - (c + 1)) + 1 := by omega
        rw [if_neg h16, if_pos hv, ih (c + 1)]
        by_cases hw : val m ≤ alpha ∨ beta ≤ val m
        · have hpm : (decide (alpha < val m) && decide (val m < beta)) = false := by
            rcases hw with h | h
            · simp [not_lt.mpr h]
            · simp [not_lt.mpr h]
          simp [hw, hc, hv, List.filter_cons, hpm, List.take_succ_cons]
        · have ha : alpha < val m := by omega
          have hb : val m < beta := by omega
          have hpm : (decide (alpha < val m) && decide (val m < beta)) = true := by
            simp [ha, hb]
          simp [hw, hc, hv, List.filter_cons, hpm, List.take_succ_cons]
      · have hvf : valid m = false := by simpa using hv
        rw [if_neg h16, if_neg (by simp [hvf]), ih c]
        simp [List.filter_cons, hvf]

/-- C6 (amended).  The online sibling loop has no test against the expert
move: when a job reaches the deposit phase, the searched siblings are
exactly the first 16 moves of the shuffled list accepted by `makeMove`,
whether or not the expert move is among them (and an in-window expert
deposits like any sibling).  Only the batch generator skips the expert
move: it never appears among the batch loop's searched siblings. -/
theorem claimC6_theorem {M : Type} [DecidableEq M] (mate : Int) (move0 : M) (moves : List M)
    (val0 : Int) (margin : Int) (pv0 : List M) (valid : M → Bool) (val : M → Int)
    (pvs : M → List M) :
    (2 ≤ moves.length → -mate < val0 → val0 < mate →
      (genGradient mate move0 moves val0 margin valid val).searched
        = (moves.filter valid).take 16) ∧
    move0 ∉ (generateTraningData mate move0 moves val0 pv0 valid val pvs).searched := by
  constructor
  · intro h2 hlo hhi
    unfold genGradient
    rw [if_neg (by omega), if_neg (by omega)]
    simp [onlineSibLoop_eq]
  · by_cases hA : moves.length < 2
    · simp [generateTraningData, hA]
    · by_cases hB : val0 ≤ -mate ∨ mate ≤ val0
      · simp [generateTraningData, hA, hB]
      · simp only [generateTraningData, if_neg hA, if_neg hB, batchSibLoop_eq]
        intro hmem
        rw [List.mem_filter] at hmem
        simp [searchedSib] at hmem

/-- Witness for C6 (amended): with expert move `5` and shuffled moves
`[5, 1, 2]`, the online searched-sibling list is all three moves (the
expert included), while the batch searched list never contains `5`. -/
theorem claimC6_witness :
    (genGradient (M := Nat) 30000 5 [5, 1, 2] 0 100 (fun _ => true) (fun _ => 0)).searched
      = [5, 1, 2] ∧
    5 ∉ (generateTraningData (M := Nat) 30000 5 [5, 1, 2] 0 [] (fun _ => true)
        (fun _ => 0) (fun _ => [])).searched := by
  have h := claimC6_theorem 30000 5 [5, 1, 2] 0 100 [] (fun _ => true) (fun _ => 0)
    (fun _ => [])
  refine ⟨?_, h.2⟩
  rw [h.1 (by decide) (by decide) (by decide)]
  decide

/-- C6, counterexample to the claim as stated: with expert move `0` first
in the shuffled list and every score inside the window, the online
generator searches the expert move as a sibling (`searched = [0, 1]`),
counts it toward the 16-sibling limit and into `errorCount_`
(`errorInc = 2`), and deposits a sibling gradient at its leaf
(`deposits = [0, 1]`). -/
theorem claimC6_counterexample :
    genGradient (M := Nat) 30000 0 [0, 1] 0 100 (fun _ => true) (fun _ => 0)
      = ⟨[0, 1], [0, 1], 16, 2⟩ ∧
    0 ∈ (genGradient (M := Nat) 30000 0 [0, 1] 0 100 (fun _ => true) (fun _ => 0)).searched ∧
    0 ∈ (genGradient (M := Nat) 30000 0 [0, 1] 0 100 (fun _ => true) (fun _ => 0)).deposits := by
  refine ⟨by decide, by decide, by decide⟩

theorem scaleInc_eq {M : Type} (mate : Int) (j : OLJob M) :
    (genGradient mate j.move0 j.moves j.val0 j.margin j.valid j.val).scaleInc
      = if j.reaches mate then 16 else 0 := by
  unfold genGradient
  by_cases hA : j.moves.length < 2
  · rw [if_pos hA, if_neg (by unfold OLJob.reaches; omega)]
  · by_cases hB : j.val0 ≤ -mate ∨ mate ≤ j.val0
    · rw [if_neg hA, if_pos hB, if_neg (by unfold OLJob.reaches; omega)]
    · rw [if_neg hA, if_neg hB, if_pos (by unfold OLJob.reaches; omega)]

/-- C9.  `miniBatchScale_` at the end of a mini-batch is exactly
`NUMBER_OF_SIBLING_NODES = 16` times the number of jobs that reached the
deposit phase (at least two generated moves and a non-mate expert score);
it is nonzero exactly when at least one job reached that phase; and the
per-cell update `update1` divides the accumulated gradient by exactly this
scale, with no zero guard. -/
theorem claimC9_theorem {M : Type} (mate : Int) (jobs : List (OLJob M)) :
    miniBatchScale mate jobs = 16 * jobs.countP (fun j => decide (j.reaches mate)) ∧
    (miniBatchScale mate jobs ≠ 0 ↔ ∃ j ∈ jobs, j.reaches mate) ∧
    ∀ (mbcount : Nat) (pScale g w u : Rat),
      update1 (miniBatchScale mate jobs) mbcount pScale g w u
        = (0, w + (g / (miniBatchScale mate jobs : Rat) + normOnline pScale w),
           u + (g / (miniBatchScale mate jobs : Rat) + normOnline pScale w)
             * (mbcount : Rat)) := by
  have hmain : miniBatchScale mate jobs
      = 16 * jobs.countP (fun j => decide (j.reaches mate)) := by
    unfold miniBatchScale
    induction jobs with
    | nil => rfl
    | cons j t ih =>
      rw [List.map_cons, List.sum_cons, List.countP_cons, ih, scaleInc_eq]
      by_cases h : j.reaches mate
      · rw [if_pos h, decide_eq_true h, if_pos rfl, Nat.mul_add, Nat.mul_one]
        omega
      · rw [if_neg h, decide_eq_false h, if_neg (by simp)]
        omega
  refine ⟨hmain, ?_, fun _ _ _ _ _ => rfl⟩
  rw [hmain]
  constructor
  · intro h
    have hc : 0 < jobs.countP (fun j => decide (j.reaches mate)) := by omega
    obtain ⟨j, hj, hpj⟩ := List.countP_pos_iff.mp hc
    exact ⟨j, hj, of_decide_eq_true hpj⟩
  · rintro ⟨j, hj, hpj⟩
    have hc : 0 < jobs.countP (fun j => decide (j.reaches mate)) :=
      List.countP_pos_iff.mpr ⟨j, hj, decide_eq_true hpj⟩
    omega

/-- C3.  After `updateParameters` completes, the evaluator weight table is
exactly mirror-symmetric: both members of every mirror pair hold the same
value, for any gradient, any starting weights and any random bits — the
final copy pass forces the equality.  (The statement is per table and
applies to `kpp` and `kkp` alike.) -/
theorem claimC3_theorem {n : Nat} (mirror : Fin n → Fin n)
    (hinv : ∀ i, mirror (mirror i) = i) (g : Fin n → Rat) (e : Fin n → Int)
    (b1 b2 : Fin n → Bool) (i : Fin n) :
    updateParameters mirror g e b1 b2 (mirror i) = updateParameters mirror g e b1 b2 i := by
  simp only [updateParameters, symmetrizeCopy]
  rw [hinv i]
  rcases lt_trichotomy (mirror i) i with h | h | h
  · rw [if_neg (lt_asymm h), if_pos h]
  · rw [h]
  · rw [if_pos h, if_neg (lt_asymm h)]

/-- Witness for C3 on a two-cell table with the swap pairing. -/
theorem claimC3_witness :
    updateParameters (fun i : Fin 2 => ⟨1 - i.1, by omega⟩) (fun _ => 1) (fun _ => 0)
        (fun _ => true) (fun _ => true) ((fun i : Fin 2 => ⟨1 - i.1, by omega⟩) 0)
      = updateParameters (fun i : Fin 2 => ⟨1 - i.1, by omega⟩) (fun _ => 1) (fun _ => 0)
        (fun _ => true) (fun _ => true) 0 :=
  claimC3_theorem (fun i : Fin 2 => ⟨1 - i.1, by omega⟩) (by decide)
    (fun _ => 1) (fun _ => 0) (fun _ => true) (fun _ => true) 0

theorem map_indexOf_eq {α β : Type} [DecidableEq α] :
    ∀ (p : List α), p.Nodup → ∀ f : Nat → β,
      (p.map fun a => f (p.indexOf a)) = (List.range p.length).map f := by
  intro p
  induction p with
  | nil => intro _ f; rfl
  | cons a t ih =>
    intro h f
    rw [List.nodup_cons] at h
    have hstep : (t.map fun x => f ((a :: t).indexOf x)) = t.map fun x => f (t.indexOf x + 1) := by
      apply List.map_congr_left
      intro x hx
      have hne : a ≠ x := fun e => h.1 (e ▸ hx)
      rw [List.indexOf_cons_ne _ hne]
    rw [List.map_cons, List.indexOf_cons_self, List.length_cons, hstep,
      ih h.2 (fun k => f (k + 1)), List.range_succ_eq_map, List.map_cons, List.map_map]
    rfl

/-- C4.  Whatever the gradient values and whatever reordering the two
shuffles leave within the sorted halves, one call of `updateMaterial` adds
to the 13 base values a set of deltas that is exactly the multiset
`(-2, -2, -1, -1, -1, 0, 0, 0, 1, 1, 1, 2, 2)` — in particular they sum
to zero — and the exchange table of the result is regenerated from the
updated base values. -/
theorem claimC4_theorem (gm : Piece → Rat) (base : Piece → Int) (lo hi : List Piece)
    (hlo : lo.Perm ((sortedSlots gm).take 6)) (hhi : hi.Perm ((sortedSlots gm).drop 6)) :
    ((slots.map fun s => (updateMaterial gm base lo hi).base s - base s : List Int) :
        Multiset Int)
      = ({-2, -2, -1, -1, -1, 0, 0, 0, 1, 1, 1, 2, 2} : Multiset Int) ∧
    (updateMaterial gm base lo hi).ex = updateEx (updateMaterial gm base lo hi).base := by
  have hperm : (lo ++ hi).Perm slots := by
    have h1 := hlo.append hhi
    rw [List.take_append_drop] at h1
    exact h1.trans (List.perm_insertionSort _ _)
  have hnodup : (lo ++ hi).Nodup := hperm.nodup_iff.mpr (by decide)
  have hlen : (lo ++ hi).length = 13 := by rw [hperm.length_eq]; rfl
  constructor
  · have hmap : (slots.map fun s => (updateMaterial gm base lo hi).base s - base s)
        = slots.map fun s => schedule ((lo ++ hi).indexOf s) := by
      apply List.map_congr_left
      intro s _
      simp only [updateMaterial]
      omega
    have hmel : ((lo ++ hi).map fun s => schedule ((lo ++ hi).indexOf s))
        = (List.range 13).map schedule := by
      rw [map_indexOf_eq (lo ++ hi) hnodup schedule, hlen]
    have hms : ((slots.map fun s => schedule ((lo ++ hi).indexOf s)) : Multiset Int)
        = (((lo ++ hi).map fun s => schedule ((lo ++ hi).indexOf s)) : Multiset Int) :=
      Multiset.coe_eq_coe.mpr (hperm.map _).symm
    rw [hmap, hms, hmel]
    decide
  · rfl


/-- Witness for C4 at concrete inputs. -/
theorem claimC4_witness :
    ((slots.map fun s => (updateMaterial gmC4 baseC4 loC4 hiC4).base s - baseC4 s : List Int) :
        Multiset Int)
      = ({-2, -2, -1, -1, -1, 0, 0, 0, 1, 1, 1, 2, 2} : Multiset Int) ∧
    (updateMaterial gmC4 baseC4 loC4 hiC4).ex
      = updateEx (updateMaterial gmC4 baseC4 loC4 hiC4).base :=
  claimC4_theorem gmC4 baseC4 loC4 hiC4 (by decide) (by decide)


/-- C7, counterexample to the claim as stated: starting from base values
that satisfy the promoted-at-least-unpromoted constraint (all 100), one
`updateMaterial` call with the exhibited (reachable) sort-and-shuffle
outcome adds +2 to Pawn and -2 to Tokin; the constraint is violated
afterwards and `piecePromote(Pawn) = Tokin - Pawn = -4 < 0`.  Nothing in
`updateMaterial` enforces the constraint. -/
theorem claimC7_counterexample :
    loC7.Perm ((sortedSlots gmC7).take 6) ∧ hiC7.Perm ((sortedSlots gmC7).drop 6) ∧
    materialOk baseC7 ∧
    ¬ materialOk (updateMaterial gmC7 baseC7 loC7 hiC7).base ∧
    piecePromote (updateMaterial gmC7 baseC7 loC7 hiC7).base Piece.pawn < 0 := by
  refine ⟨by decide, by decide, by decide, by decide, by decide⟩

theorem schedule_bound (j : Nat) : -2 ≤ schedule j ∧ schedule j ≤ 2 := by
  unfold schedule scheduleList
  rcases j with _ | _ | _ | _ | _ | _ | _ | _ | _ | _ | _ | _ | _ | j <;>
    simp [List.getD_cons_succ, List.getD_cons_zero]

/-- C7 (amended).  A single `updateMaterial` call moves every base value
by at most 2 in either direction, so the promoted-at-least-unpromoted
constraint is preserved only under the stronger margin
`base(promoted) ≥ base(unpromoted) + 4`; under that margin the constraint
holds after the update and `piecePromote` is non-negative for every piece.
With a smaller margin the update can break the constraint
(see the counterexample), and no mutation of the material table enforces
it. -/
theorem claimC7_theorem (gm : Piece → Rat) (base : Piece → Int) (lo hi : List Piece)
    (hlo : lo.Perm ((sortedSlots gm).take 6)) (hhi : hi.Perm ((sortedSlots gm).drop 6))
    (hmargin : base .pawn + 4 ≤ base .tokin ∧ base .lance + 4 ≤ base .proLance ∧
      base .knight + 4 ≤ base .proKnight ∧ base .silver + 4 ≤ base .proSilver ∧
      base .bishop + 4 ≤ base .horse ∧ base .rook + 4 ≤ base .dragon) :
    materialOk (updateMaterial gm base lo hi).base ∧
    ∀ pc, 0 ≤ piecePromote (updateMaterial gm base lo hi).base pc := by
  have hP := schedule_bound ((lo ++ hi).indexOf Piece.pawn)
  have hL := schedule_bound ((lo ++ hi).indexOf Piece.lance)
  have hN := schedule_bound ((lo ++ hi).indexOf Piece.knight)
  have hS := schedule_bound ((lo ++ hi).indexOf Piece.silver)
  have hB := schedule_bound ((lo ++ hi).indexOf Piece.bishop)
  have hR := schedule_bound ((lo ++ hi).indexOf Piece.rook)
  have hT := schedule_bound ((lo ++ hi).indexOf Piece.tokin)
  have hPL := schedule_bound ((lo ++ hi).indexOf Piece.proLance)
  have hPN := schedule_bound ((lo ++ hi).indexOf Piece.proKnight)
  have hPS := schedule_bound ((lo ++ hi).indexOf Piece.proSilver)
  have hH := schedule_bound ((lo ++ hi).indexOf Piece.horse)
  have hD := schedule_bound ((lo ++ hi).indexOf Piece.dragon)
  have hok : materialOk (updateMaterial gm base lo hi).base := by
    unfold materialOk updateMaterial
    refine ⟨?_, ?_, ?_, ?_, ?_, ?_⟩ <;> simp only <;> omega
  refine ⟨hok, fun pc => ?_⟩
  cases pc <;> simp only [piecePromote, updateMaterial] <;> omega


/-- Witness for C7 (amended) at concrete inputs. -/
theorem claimC7_witness :
    materialOk (updateMaterial gmC4 baseC7m loC4 hiC4).base ∧
    0 ≤ piecePromote (updateMaterial gmC4 baseC7m loC4 hiC4).base Piece.pawn := by
  have h := claimC7_theorem gmC4 baseC7m loC4 hiC4 (by decide) (by decide) (by decide)
  exact ⟨h.1, h.2 Piece.pawn⟩

end Sunfish
